import Mathlib

/- Verification development for the deno_tag text preprocessor core
   (code.ts of the deno_tag repository).

   The TypeScript source is shallowly embedded: JS strings become lists of
   characters, the JS string methods used by the source (split, indexOf,
   slice, endsWith, includes, padStart, trimLeft) are given explicit
   structural definitions with the same semantics, and the asynchronous
   pluggable backends (options.runner / options.bundler) become explicit
   function-valued parameters returning Except (a rejected promise is an
   error value).  All definitions are executable. -/

namespace DenoTag

/-- JS strings are modelled as lists of characters. -/
abbrev Str := List Char

instance {ε α : Type} [DecidableEq ε] [DecidableEq α] : DecidableEq (Except ε α)
  | .ok x, .ok y =>
    if h : x = y then .isTrue (congrArg Except.ok h)
    else .isFalse (fun hh => h (Except.ok.inj hh))
  | .error x, .error y =>
    if h : x = y then .isTrue (congrArg Except.error h)
    else .isFalse (fun hh => h (Except.error.inj hh))
  | .ok _, .error _ => .isFalse (fun hh => Except.noConfusion hh)
  | .error _, .ok _ => .isFalse (fun hh => Except.noConfusion hh)

/-- JS `s.split(sep)` for a single-character separator `c` (the source uses
    it with "\n", " " and "="): split at every occurrence of `c`; the result
    is never empty, and splitting the empty string yields `[""]`. -/
def splitCh (c : Char) : Str → List Str
  | [] => [[]]
  | a :: s =>
    if a = c then [] :: splitCh c s
    else
      match splitCh c s with
      | [] => [[a]]
      | p :: ps => (a :: p) :: ps

/-- Worker for `jsSplit`: `acc` is the piece currently being accumulated.
    `fuel` only serves to make the recursion structural; it is always called
    with more fuel than the length of `s`. -/
def splitSepGo (sep : Str) : Nat → Str → Str → List Str
  | 0, acc, s => [acc ++ s]
  | fuel + 1, acc, s =>
    if sep.isPrefixOf s then acc :: splitSepGo sep fuel [] (s.drop sep.length)
    else
      match s with
      | [] => [acc]
      | c :: rest => splitSepGo sep fuel (acc ++ [c]) rest

/-- JS `s.split(sep)` for a (nonempty) multi-character separator string
    (the source uses it with "<deno", "/>" and "</deno>"): non-overlapping
    leftmost occurrences of `sep` delimit the pieces. -/
def jsSplit (sep s : Str) : List Str :=
  splitSepGo sep (s.length + 1) [] s

/-- `s.split(sep).length - 1`: the number of (non-overlapping) occurrences
    of `sep` in `s`, exactly as the scanner of the source counts them. -/
def countOcc (sep s : Str) : Nat := (jsSplit sep s).length - 1

/-- JS `line.length - line.trimLeft().length`: the number of leading
    whitespace characters of a line (trimLeft drops leading whitespace). -/
def leadingWs (l : Str) : Nat := l.length - (l.dropWhile Char.isWhitespace).length

/-- JS `s.padStart(n, c)`: left-pad `s` with `c` up to total length `n`
    (a no-op when `s` is already at least that long). -/
def padStart (s : Str) (n : Nat) (c : Char) : Str :=
  List.replicate (n - s.length) c ++ s

/-- JS `value.slice(1, -1)`: remove the first and the last character
    (used by the dispatcher to strip the wrapping quote characters). -/
def jsSliceInner (v : Str) : Str := (v.drop 1).dropLast

/-- The opening marker of a directive tag, `"<deno"`. -/
def denoMark : Str := "<deno".toList

/-- The self-closing marker `"/>"`. -/
def selfCloseMark : Str := "/>".toList

/-- The explicit closing marker `"</deno>"`. -/
def explicitCloseMark : Str := "</deno>".toList

/-- The attribute key `"run"`. -/
def runKey : Str := "run".toList

/-- The attribute key `"bundle"`. -/
def bundleKey : Str := "bundle".toList

/-- The literal value `"\"true\""` (quotes included) given to boolean
    attributes by the tokenizer. -/
def trueLit : Str := "\"true\"".toList

/-- The action name `"run"`. -/
def runAct : Str := "run".toList

/-- The action name `"bundle"`. -/
def bundleAct : Str := "bundle".toList

/-- Attributes in a `<deno>` tag: the `DenoTagAttributes` Map of the source,
    modelled as its ordered list of key/value entries (JS Map iteration is
    in insertion order, keys are unique). -/
abbrev DenoTagAttributes := List (Str × Str)

/-- State of the token loop of `parseDenoTagArgs`: the pending `key`
    (JS `null` is `none`), the accumulator `partialValue` of the source
    (named `pendingValue` here), and the `tagAttributes` pairs pushed so
    far. -/
structure TokState where
  key : Option Str
  pendingValue : Str
  pairs : List (Str × Str)
deriving DecidableEq

/-- JS truthiness of the `key` variable: `null` and the empty string are
    falsy, every other string is truthy. -/
def strTruthy : Option Str → Bool
  | none => false
  | some s => decide (s ≠ [])

/-- One iteration of the token loop of `parseDenoTagArgs` on a single
    space-split token, mirroring the source statement by statement. -/
def tokStep (st : TokState) (tok : Str) : TokState :=
  if tok = [] ∨ tok = ['/'] then st
  else
    -- `if (token.includes("=")) { key = token.split("=")[0]; token = token.split("=")[1] }`
    let p :=
      if '=' ∈ tok then (some ((splitCh '=' tok).headD []), (splitCh '=' tok).getD 1 [])
      else (st.key, tok)
    let key1 := p.1
    let token := p.2
    if token.getLast? = some '\"' then
      -- `value = partialValue + token; partialValue = ""` and then the
      -- `if (key && value)` push (this value is nonempty, hence truthy)
      let value := st.pendingValue ++ token
      if strTruthy key1 then
        { key := none, pendingValue := [], pairs := st.pairs ++ [(key1.getD [], value)] }
      else
        { key := key1, pendingValue := [], pairs := st.pairs }
    else
      if ¬ strTruthy key1 then
        -- `key = token; value = '"true"'` and then the `if (key && value)` push
        if token ≠ [] then
          { key := none, pendingValue := st.pendingValue, pairs := st.pairs ++ [(token, trueLit)] }
        else
          { key := some token, pendingValue := st.pendingValue, pairs := st.pairs }
      else
        -- `partialValue += token`
        { key := key1, pendingValue := st.pendingValue ++ token, pairs := st.pairs }

/-- Run the token loop of `parseDenoTagArgs` over the space-split tokens of
    one tag segment, returning the `tagAttributes` pair list. -/
def tokenizeAttrs (tokens : List Str) : List (Str × Str) :=
  (tokens.foldl tokStep { key := none, pendingValue := [], pairs := [] }).pairs

/-- JS `Map.set`: update the value in place when the key already exists
    (keeping its original position), append the entry otherwise. -/
def mapSet (m : List (Str × Str)) (k v : Str) : List (Str × Str) :=
  if m.any (fun p => decide (p.1 = k)) then
    m.map (fun p => if p.1 = k then (k, v) else p)
  else m ++ [(k, v)]

/-- JS `new Map(pairs)`: insert the pairs left to right (last write wins). -/
def mkMap (pairs : List (Str × Str)) : List (Str × Str) :=
  pairs.foldl (fun m p => mapSet m p.1 p.2) []

/-- `denoTags[i].slice(0, denoTags[i].indexOf(">"))` of the source: the text
    of a tag segment up to its first `>`; when there is no `>`, JS indexOf
    yields -1 and slice(0, -1) drops the last character. -/
def upToGt (seg : Str) : Str :=
  match List.findIdx? (fun c => decide (c = '>')) seg with
  | some n => seg.take n
  | none => seg.dropLast

/-- `parseDenoTagArgs` of the source: split the line on `"<deno"`, and for
    every segment after the first one, tokenize the text up to its first `>`
    into a `DenoTagAttributes` map. -/
def parseDenoTagArgs (line : Str) : List DenoTagAttributes :=
  ((jsSplit denoMark line).drop 1).map
    (fun seg => mkMap (tokenizeAttrs (splitCh ' ' (upToGt seg))))

/-- The per-group line metadata of `ParsedText.tags` keys: the record
    `{ lineOpened, lineClosed, indent }` of the source (the spec calls it
    TagOccurrenceGroup). -/
structure TagOccurrenceGroup where
  lineOpened : Nat
  lineClosed : Nat
  indent : Nat
deriving DecidableEq

/-- `ParsedText` of the source.  The source keys a Map by freshly allocated
    records, which is an insertion-ordered sequence of entries; it is
    modelled as that ordered list. -/
structure ParsedText where
  original : Str
  tags : List (TagOccurrenceGroup × List DenoTagAttributes)
deriving DecidableEq

/-- The mutable loop state of `parseDenoTag`. -/
structure ScanState where
  isMultiLine : Bool
  tagLines : List Str
  lineStart : Nat
  lineStartPad : Nat
  tags : List (TagOccurrenceGroup × List DenoTagAttributes)
deriving DecidableEq

/-- The body of the line loop of `parseDenoTag`, mirroring the source. -/
def scanStep (st : ScanState) (lineNumber : Nat) (line : Str) : ScanState :=
  let openedDenoTags := countOcc denoMark line
  let closedTags := countOcc selfCloseMark line + countOcc explicitCloseMark line
  let st1 :=
    if 0 < openedDenoTags ∨ st.isMultiLine = true then
      if st.isMultiLine = true then { st with tagLines := st.tagLines ++ [line] }
      else { st with tagLines := st.tagLines ++ [line],
                     lineStart := lineNumber, lineStartPad := leadingWs line }
    else st
  let hasAnOpenTag := st.isMultiLine = true ∨ 0 < openedDenoTags
  let closesWhatOpens := (if st.isMultiLine = true then 1 else 0) + openedDenoTags = closedTags
  if hasAnOpenTag ∧ closesWhatOpens then
    { isMultiLine := false, tagLines := [],
      lineStart := st1.lineStart, lineStartPad := st1.lineStartPad,
      tags := st1.tags ++
        [({ lineOpened := st1.lineStart, lineClosed := lineNumber,
            indent := st1.lineStartPad },
          parseDenoTagArgs (List.intercalate [' '] st1.tagLines))] }
  else
    { st1 with isMultiLine := decide (hasAnOpenTag ∧ ¬ closesWhatOpens) }

/-- The line loop of `parseDenoTag` (`lineNumber` is the loop index). -/
def scanLines (st : ScanState) : Nat → List Str → ScanState
  | _, [] => st
  | i, l :: rest => scanLines (scanStep st i l) (i + 1) rest

/-- The initial loop state of `parseDenoTag`. -/
def initScan : ScanState :=
  { isMultiLine := false, tagLines := [], lineStart := 0, lineStartPad := 0, tags := [] }

/-- `parseDenoTag` of the source: split the text into lines, scan them for
    `<deno` tag groups and tokenize each group's joined lines. -/
def parseDenoTag (text : Str) : ParsedText :=
  { original := text, tags := (scanLines initScan 0 (splitCh '\n' text)).tags }

/-- The pluggable backends of `DenoTagOptions`.  `runner` models
    `options.runner` composed with reading and utf-8 decoding the piped
    output (`await runner(runOptions).output()` then TextDecoder): it takes
    the final `cmd` array and yields the captured output, or an error when
    the call throws/rejects.  `bundler` models `options.bundler`: it takes
    the file and yields the output text (component 1 of the bundler pair,
    diagnostics are ignored by the source), or an error when it
    throws/rejects.  `baseCmd` is `runOptions.cmd` before the dispatcher
    appends the file and flags. -/
structure Backends where
  runner : List Str → Except Str Str
  bundler : Str → Except Str Str
  baseCmd : List Str

/-- What one `runDeno` call did: its returned `result` (an `Except` since a
    bundler rejection propagates out of `runDeno`), what was logged to
    `console.error`, and the argument of every runner/bundler invocation
    (so that "invoked once, with this cmd" is a provable statement). -/
structure DispatchOutcome where
  result : Except Str Str
  errLog : List Str
  runnerCmds : List (List Str)
  bundlerFiles : List Str
deriving DecidableEq

/-- One iteration of the argument-reading loop of `runDeno` (the switch on
    the attribute name), on the state `(action, file, flags)`. -/
def classifyStep (acc : Str × Str × List Str) (kv : Str × Str) : Str × Str × List Str :=
  if kv.1 = runKey then (acc.1, jsSliceInner kv.2, acc.2.2)
  else if kv.1 = bundleKey then (bundleAct, jsSliceInner kv.2, acc.2.2)
  else (acc.1, acc.2.1, acc.2.2 ++ [kv.1 ++ '=' :: kv.2])

/-- The argument-reading loop of `runDeno`: fold over the attribute map
    entries computing `action`, `file` and `flags` exactly as the source's
    switch does. -/
def classifyArgs (args : DenoTagAttributes) : Str × Str × List Str :=
  args.foldl classifyStep (runAct, [], [])

/-- `runDeno` of the source.  For the `"run"` action the cmd is
    `[...runOptions.cmd, file, ...flags]`; a runner failure is caught:
    it is logged and `result` stays the empty string.  For the `"bundle"`
    action the bundler is called without any try/catch, so its failure
    propagates (an `.error` result). -/
def runDeno (args : DenoTagAttributes) (b : Backends) : DispatchOutcome :=
  let c := classifyArgs args
  if c.1 = runAct then
    let cmd := b.baseCmd ++ [c.2.1] ++ c.2.2
    match b.runner cmd with
    | .ok out => { result := .ok out, errLog := [], runnerCmds := [cmd], bundlerFiles := [] }
    | .error e => { result := .ok [], errLog := [e], runnerCmds := [cmd], bundlerFiles := [] }
  else
    match b.bundler c.2.1 with
    | .ok out => { result := .ok out, errLog := [], runnerCmds := [], bundlerFiles := [c.2.1] }
    | .error e => { result := .error e, errLog := [], runnerCmds := [], bundlerFiles := [c.2.1] }

/-- The full cmd array the dispatcher hands to the run backend for an
    attribute map. -/
def runCmdOf (args : DenoTagAttributes) (b : Backends) : List Str :=
  b.baseCmd ++ [(classifyArgs args).2.1] ++ (classifyArgs args).2.2

/-- Rendering of the non-run non-bundle attributes as `key=value` flag
    strings, in encounter order (what the dispatcher's loop pushes). -/
def flagsRendered (m : DenoTagAttributes) : List Str :=
  (m.filter (fun p => decide (¬ (p.1 = runKey ∨ p.1 = bundleKey)))).map
    (fun p => p.1 ++ '=' :: p.2)

/-- `Result` of the source (its `from` and `to` fields are `from_` and `to_`
    here since `from` and `to` are Lean keywords). -/
structure Result where
  contents : Str
  from_ : Nat
  to_ : Nat
deriving DecidableEq

/-- The inner loop of `executeDenoTags`: await `runDeno` for each attribute
    map of one group, in order; a thrown error aborts immediately. -/
def sequenceOutputs (b : Backends) : List DenoTagAttributes → Except Str (List Str)
  | [] => .ok []
  | m :: ms =>
    match (runDeno m b).result with
    | .error e => .error e
    | .ok out =>
      match sequenceOutputs b ms with
      | .error e => .error e
      | .ok outs => .ok (out :: outs)

/-- Processing of one tag group by `executeDenoTags`: join the outputs with
    newlines, re-split into lines, pad each line on the left to
    `indent + line.length` with spaces, rejoin, and wrap in a `Result`
    carrying the group's line limits. -/
def execGroup (b : Backends) (g : TagOccurrenceGroup) (ams : List DenoTagAttributes) :
    Except Str Result :=
  match sequenceOutputs b ams with
  | .error e => .error e
  | .ok outs =>
    .ok { from_ := g.lineOpened, to_ := g.lineClosed,
          contents :=
            List.intercalate ['\n']
              ((splitCh '\n' (List.intercalate ['\n'] outs)).map
                (fun line => padStart line (g.indent + line.length) ' ')) }

/-- The group loop of `executeDenoTags`. -/
def execGroups (b : Backends) : List (TagOccurrenceGroup × List DenoTagAttributes) →
    Except Str (List Result)
  | [] => .ok []
  | (g, ams) :: rest =>
    match execGroup b g ams with
    | .error e => .error e
    | .ok r =>
      match execGroups b rest with
      | .error e => .error e
      | .ok rs => .ok (r :: rs)

/-- `executeDenoTags` of the source. -/
def executeDenoTags (pr : ParsedText) (b : Backends) : Except Str (List Result) :=
  execGroups b pr.tags

/-- The line loop of `replaceTagsWithResults` over the remaining lines,
    `i` being the current line index: for each line, first push the
    contents of every result whose `from` equals `i` (in results order),
    then keep the line itself unless it lies inside the limits of some
    result. -/
def reassemble (results : List Result) : Nat → List Str → List Str
  | _, [] => []
  | i, line :: rest =>
    ((results.filter (fun r => decide (i = r.from_))).map (fun r => r.contents)) ++
      (if results.any (fun r => decide (r.from_ ≤ i ∧ i ≤ r.to_)) then [] else [line]) ++
      reassemble results (i + 1) rest

/-- `replaceTagsWithResults` of the source: remove the lines covered by
    each result and put the result contents at each `from` line, then join
    everything back with newlines. -/
def replaceTagsWithResults (original : Str) (results : List Result) : Str :=
  List.intercalate ['\n'] (reassemble results 0 (splitCh '\n' original))

/-- `denoTag` of the source: parse, execute, replace.  The optional
    `options` argument (whose defaults are the real Deno IO facilities,
    out of scope here) is modelled by the explicit `Backends` record. -/
def denoTag (text : Str) (b : Backends) : Except Str Str :=
  match executeDenoTags (parseDenoTag text) b with
  | .error e => .error e
  | .ok rs => .ok (replaceTagsWithResults text rs)

/-- The number of lines of a string (`s.split("\n").length`). -/
def lineCount (s : Str) : Nat := (splitCh '\n' s).length

/-- The default base command of the source's default `runOptions`. -/
def defaultCmd : List Str :=
  ["deno".toList, "run".toList, "--allow-read".toList, "--allow-run".toList]

/-- A test double whose runner always succeeds with a fixed output
    (like the `createRunnerMock` of the repository's tests). -/
def mockBackends (out : Str) : Backends :=
  { runner := fun _ => .ok out, bundler := fun _ => .ok [], baseCmd := defaultCmd }

/-- A test double whose runner always throws. -/
def mockFailRunner (e : Str) : Backends :=
  { runner := fun _ => .error e, bundler := fun _ => .ok [], baseCmd := defaultCmd }

/-- A test double whose bundler always throws. -/
def mockFailBundler (e : Str) : Backends :=
  { runner := fun _ => .ok [], bundler := fun _ => .error e, baseCmd := defaultCmd }

/-! ### Lemmas about the string helpers -/

theorem splitCh_ne_nil (c : Char) : ∀ s : Str, splitCh c s ≠ []
  | [] => by simp [splitCh]
  | a :: s => by
    simp only [splitCh]
    split
    · simp
    · split
      · simp
      · simp

theorem splitCh_cons (c a : Char) (s : Str) :
    splitCh c (a :: s) =
      if a = c then [] :: splitCh c s
      else (a :: (splitCh c s).headD []) :: (splitCh c s).tail := by
  cases h : splitCh c s with
  | nil => exact absurd h (splitCh_ne_nil c s)
  | cons p ps => simp [splitCh, h]

theorem not_mem_of_mem_splitCh (c : Char) : ∀ (s : Str) (p : Str), p ∈ splitCh c s → c ∉ p := by
  intro s
  induction s with
  | nil =>
    intro p hp
    simp [splitCh] at hp
    simp [hp]
  | cons a s ih =>
    intro p hp
    rw [splitCh_cons] at hp
    by_cases hac : a = c
    · rw [if_pos hac] at hp
      rcases List.mem_cons.mp hp with h | h
      · simp [h]
      · exact ih p h
    · rw [if_neg hac] at hp
      cases hq : splitCh c s with
      | nil => exact absurd hq (splitCh_ne_nil c s)
      | cons q qs =>
        rw [hq] at hp
        simp only [List.headD_cons, List.tail_cons] at hp
        rcases List.mem_cons.mp hp with h | h
        · subst h
          intro hmem
          rcases List.mem_cons.mp hmem with h1 | h1
          · exact hac h1.symm
          · exact ih q (by rw [hq]; exact List.mem_cons_self q qs) h1
        · exact ih p (by rw [hq]; exact List.mem_cons_of_mem q h)

theorem splitCh_eq_of_not_mem (c : Char) : ∀ s : Str, c ∉ s → splitCh c s = [s] := by
  intro s
  induction s with
  | nil => intro _; rfl
  | cons a s ih =>
    intro h
    have hac : ¬ a = c := fun e => h (by simp [e])
    have hs : c ∉ s := fun hm => h (List.mem_cons_of_mem a hm)
    rw [splitCh_cons, if_neg hac, ih hs]
    simp

theorem splitCh_append (c : Char) :
    ∀ (x y : Str), splitCh c (x ++ c :: y) = splitCh c x ++ splitCh c y := by
  intro x y
  induction x with
  | nil => simp [splitCh, splitCh_cons]
  | cons a x ih =>
    by_cases hac : a = c
    · rw [List.cons_append, splitCh_cons, if_pos hac, ih, splitCh_cons, if_pos hac]
      simp
    · rw [List.cons_append, splitCh_cons, if_neg hac, ih, splitCh_cons, if_neg hac]
      cases hq : splitCh c x with
      | nil => exact absurd hq (splitCh_ne_nil c x)
      | cons q qs => simp

theorem intercalate_cons₂ (s : Str) (a b : Str) (t : List Str) :
    List.intercalate s (a :: b :: t) = a ++ s ++ List.intercalate s (b :: t) := by
  simp [List.intercalate, List.intersperse_cons_cons]

theorem intercalate_single (s a : Str) : List.intercalate s [a] = a := by
  simp [List.intercalate]

theorem intercalate_splitCh (c : Char) : ∀ s : Str, List.intercalate [c] (splitCh c s) = s := by
  intro s
  induction s with
  | nil => simp [splitCh, List.intercalate]
  | cons a s ih =>
    rw [splitCh_cons]
    by_cases hac : a = c
    · rw [if_pos hac]
      cases hq : splitCh c s with
      | nil => exact absurd hq (splitCh_ne_nil c s)
      | cons q qs =>
        rw [hq] at ih
        rw [intercalate_cons₂, ih, hac]
        simp
    · rw [if_neg hac]
      cases hq : splitCh c s with
      | nil => exact absurd hq (splitCh_ne_nil c s)
      | cons q qs =>
        rw [hq] at ih
        cases qs with
        | nil =>
          rw [intercalate_single] at ih
          rw [List.headD_cons, List.tail_cons, intercalate_single, ih]
        | cons r rs =>
          rw [intercalate_cons₂] at ih
          rw [List.headD_cons, List.tail_cons, intercalate_cons₂, List.cons_append,
            List.cons_append, ih]

theorem splitCh_intercalate (c : Char) :
    ∀ ps : List Str, ps ≠ [] → (∀ p ∈ ps, c ∉ p) →
      splitCh c (List.intercalate [c] ps) = ps := by
  intro ps
  induction ps with
  | nil => intro h; exact absurd rfl h
  | cons p ps ih =>
    intro _ hmem
    cases ps with
    | nil => rw [intercalate_single]; exact splitCh_eq_of_not_mem c p (hmem p (by simp))
    | cons q qs =>
      rw [intercalate_cons₂]
      rw [show p ++ [c] ++ List.intercalate [c] (q :: qs)
            = p ++ c :: List.intercalate [c] (q :: qs) by simp]
      rw [splitCh_append, splitCh_eq_of_not_mem c p (hmem p (by simp)),
        ih (by simp) (fun x hx => hmem x (by simp [hx]))]
      rfl

theorem splitCh_intercalate_flatten (c : Char) :
    ∀ ps : List Str, ps ≠ [] →
      splitCh c (List.intercalate [c] ps) = (ps.map (splitCh c)).flatten := by
  intro ps
  induction ps with
  | nil => intro h; exact absurd rfl h
  | cons p ps ih =>
    intro _
    cases ps with
    | nil => rw [intercalate_single]; simp
    | cons q qs =>
      rw [intercalate_cons₂]
      rw [show p ++ [c] ++ List.intercalate [c] (q :: qs)
            = p ++ c :: List.intercalate [c] (q :: qs) by simp]
      rw [splitCh_append, ih (by simp)]
      simp

theorem lineCount_intercalate (ps : List Str) (h : ps ≠ []) :
    lineCount (List.intercalate ['\n'] ps) = (ps.map lineCount).sum := by
  unfold lineCount
  rw [splitCh_intercalate_flatten '\n' ps h, List.length_flatten]
  simp only [List.map_map]
  rfl

theorem padStart_add (l : Str) (k : Nat) (c : Char) :
    padStart l (k + l.length) c = List.replicate k c ++ l := by
  simp [padStart]

/-! ### Lemmas about the fueled multi-character split -/

theorem splitSepGo_ne_nil (sep : Str) : ∀ (fuel : Nat) (acc s : Str),
    splitSepGo sep fuel acc s ≠ [] := by
  intro fuel
  induction fuel with
  | zero => intro acc s; simp [splitSepGo]
  | succ fuel ih =>
    intro acc s
    simp only [splitSepGo]
    split
    · simp
    · split
      · simp
      · exact ih _ _

theorem splitSepGo_no_occ (sep : Str) (hsep : sep ≠ []) :
    ∀ (fuel : Nat) (acc s : Str), ¬ (sep <:+: s) → s.length < fuel →
      splitSepGo sep fuel acc s = [acc ++ s] := by
  intro fuel
  induction fuel with
  | zero => intro acc s _ h; exact absurd h (Nat.not_lt_zero _)
  | succ fuel ih =>
    intro acc s hinf hlen
    simp only [splitSepGo]
    have hnp : ¬ (sep.isPrefixOf s = true) :=
      fun hp => hinf ((List.isPrefixOf_iff_prefix.mp hp).isInfix)
    rw [if_neg hnp]
    cases s with
    | nil => simp
    | cons c rest =>
      have h1 : ¬ (sep <:+: rest) :=
        fun h => hinf (h.trans (List.suffix_cons c rest).isInfix)
      have h2 : rest.length < fuel := by
        simp only [List.length_cons] at hlen
        omega
      show splitSepGo sep fuel (acc ++ [c]) rest = [acc ++ c :: rest]
      rw [ih (acc ++ [c]) rest h1 h2]
      simp

theorem two_le_splitSepGo_occ (sep : Str) (hsep : sep ≠ []) :
    ∀ (fuel : Nat) (acc s : Str), sep <:+: s → s.length < fuel →
      2 ≤ (splitSepGo sep fuel acc s).length := by
  intro fuel
  induction fuel with
  | zero => intro acc s _ h; exact absurd h (Nat.not_lt_zero _)
  | succ fuel ih =>
    intro acc s hinf hlen
    simp only [splitSepGo]
    by_cases hp : sep.isPrefixOf s = true
    · rw [if_pos hp]
      have h1 : splitSepGo sep fuel [] (s.drop sep.length) ≠ [] := splitSepGo_ne_nil sep _ _ _
      have h2 : 0 < (splitSepGo sep fuel [] (s.drop sep.length)).length := List.length_pos.mpr h1
      simp only [List.length_cons]
      omega
    · rw [if_neg hp]
      cases s with
      | nil =>
        have : sep = [] := List.sublist_nil.mp hinf.sublist
        exact absurd this hsep
      | cons c rest =>
        obtain ⟨t, u, htu⟩ := hinf
        cases t with
        | nil =>
          exfalso
          apply hp
          rw [List.isPrefixOf_iff_prefix]
          exact ⟨u, by simpa using htu⟩
        | cons d t' =>
          have heq : t' ++ sep ++ u = rest := by
            simp only [List.cons_append, List.cons.injEq] at htu
            exact htu.2
          have h1 : sep <:+: rest := ⟨t', u, heq⟩
          have h2 : rest.length < fuel := by
            simp only [List.length_cons] at hlen
            omega
          exact ih _ rest h1 h2

theorem infix_of_two_le_splitSepGo (sep : Str) :
    ∀ (fuel : Nat) (acc s : Str), 2 ≤ (splitSepGo sep fuel acc s).length → sep <:+: s := by
  intro fuel
  induction fuel with
  | zero => intro acc s h; simp [splitSepGo] at h
  | succ fuel ih =>
    intro acc s h
    simp only [splitSepGo] at h
    by_cases hp : sep.isPrefixOf s = true
    · exact (List.isPrefixOf_iff_prefix.mp hp).isInfix
    · rw [if_neg hp] at h
      cases s with
      | nil => simp at h
      | cons c rest =>
        exact (ih (acc ++ [c]) rest h).trans (List.suffix_cons c rest).isInfix

theorem countOcc_eq_zero (sep s : Str) (hsep : sep ≠ []) (h : ¬ (sep <:+: s)) :
    countOcc sep s = 0 := by
  unfold countOcc jsSplit
  rw [splitSepGo_no_occ sep hsep _ [] s h (Nat.lt_succ_self _)]
  simp

theorem countOcc_pos (sep s : Str) (hsep : sep ≠ []) (h : sep <:+: s) :
    0 < countOcc sep s := by
  unfold countOcc jsSplit
  have := two_le_splitSepGo_occ sep hsep (s.length + 1) [] s h (Nat.lt_succ_self _)
  omega

theorem infix_of_countOcc_pos (sep s : Str) (h : 0 < countOcc sep s) : sep <:+: s := by
  unfold countOcc jsSplit at h
  apply infix_of_two_le_splitSepGo sep (s.length + 1) [] s
  omega

theorem jsSplit_no_occ (sep s : Str) (hsep : sep ≠ []) (h : ¬ (sep <:+: s)) :
    jsSplit sep s = [s] := by
  unfold jsSplit
  rw [splitSepGo_no_occ sep hsep _ [] s h (Nat.lt_succ_self _)]
  simp

theorem mem_infix_intercalate (s : Str) :
    ∀ (ls : List Str) (l : Str), l ∈ ls → l <:+: List.intercalate s ls := by
  intro ls
  induction ls with
  | nil => simp
  | cons x t ih =>
    intro l hl
    rcases List.mem_cons.mp hl with h | h
    · subst h
      cases t with
      | nil => rw [intercalate_single]
      | cons y ys =>
        rw [intercalate_cons₂]
        exact ⟨[], s ++ List.intercalate s (y :: ys), by simp⟩
    · cases t with
      | nil => simp at h
      | cons y ys =>
        rw [intercalate_cons₂]
        exact (ih l h).trans ⟨x ++ s, [], by simp⟩

theorem parseDenoTagArgs_ne_nil (line : Str) (h : denoMark <:+: line) :
    parseDenoTagArgs line ≠ [] := by
  unfold parseDenoTagArgs
  have h2 := countOcc_pos denoMark line (by decide) h
  intro he
  have h3 := congrArg List.length he
  simp only [List.length_map, List.length_drop, List.length_nil] at h3
  unfold countOcc at h2
  omega

/-! ### The reassembler on an empty result list -/

theorem reassemble_nil_results : ∀ (i : Nat) (lines : List Str),
    reassemble [] i lines = lines := by
  intro i lines
  induction lines generalizing i with
  | nil => rfl
  | cons l rest ih => simp [reassemble, ih]

theorem replace_nil (original : Str) : replaceTagsWithResults original [] = original := by
  unfold replaceTagsWithResults
  rw [reassemble_nil_results, intercalate_splitCh]

/-! ### The scanner on text without any tag marker -/

theorem scanLines_untouched (a b : Nat) (ts : List (TagOccurrenceGroup × List DenoTagAttributes)) :
    ∀ (lines : List Str) (i : Nat), (∀ l ∈ lines, ¬ (denoMark <:+: l)) →
      scanLines ⟨false, [], a, b, ts⟩ i lines = ⟨false, [], a, b, ts⟩ := by
  intro lines
  induction lines with
  | nil => intro i _; rfl
  | cons l rest ih =>
    intro i h
    have h0 : countOcc denoMark l = 0 := countOcc_eq_zero _ _ (by decide) (h l (by simp))
    have hstep : scanStep ⟨false, [], a, b, ts⟩ i l = ⟨false, [], a, b, ts⟩ := by
      simp [scanStep, h0]
    rw [scanLines, hstep]
    exact ih (i + 1) (fun x hx => h x (by simp [hx]))

theorem parseDenoTag_tags_nil (text : Str)
    (h : ∀ l ∈ splitCh '\n' text, ¬ (denoMark <:+: l)) :
    (parseDenoTag text).tags = [] := by
  unfold parseDenoTag
  rw [show initScan = (⟨false, [], 0, 0, []⟩ : ScanState) from rfl,
    scanLines_untouched 0 0 [] _ 0 h]

/-- C1: for every input document without any `<deno` marker on any of its
    lines, `denoTag` returns the input text unchanged, for every choice of
    backends. -/
theorem denoTag_identity (text : Str) (b : Backends)
    (h : ∀ l ∈ splitCh '\n' text, ¬ (denoMark <:+: l)) :
    denoTag text b = .ok text := by
  unfold denoTag executeDenoTags
  rw [parseDenoTag_tags_nil text h]
  simp only [execGroups]
  rw [replace_nil]

/-- Witness for C1 at a concrete two-line document and a concrete backend. -/
theorem denoTag_identity_witness :
    denoTag ("hello\nworld".toList) (mockBackends ("x".toList))
      = .ok ("hello\nworld".toList) :=
  denoTag_identity _ _ (by decide)

/-! ### Inversion lemmas for the composer -/

theorem execGroup_ok (b : Backends) (g : TagOccurrenceGroup) (ams : List DenoTagAttributes)
    (r : Result) (h : execGroup b g ams = .ok r) :
    ∃ outs, sequenceOutputs b ams = .ok outs ∧
      r = { from_ := g.lineOpened, to_ := g.lineClosed,
            contents :=
              List.intercalate ['\n']
                ((splitCh '\n' (List.intercalate ['\n'] outs)).map
                  (fun line => padStart line (g.indent + line.length) ' ')) } := by
  unfold execGroup at h
  split at h
  · simp at h
  · rename_i outs hs
    exact ⟨outs, hs, (Except.ok.inj h).symm⟩

theorem execGroups_ok (b : Backends) :
    ∀ (tags : List (TagOccurrenceGroup × List DenoTagAttributes)) (rs : List Result),
      execGroups b tags = .ok rs →
      rs.length = tags.length ∧
      ∀ i, i < tags.length →
        execGroup b (tags.getD i (⟨0, 0, 0⟩, [])).1 (tags.getD i (⟨0, 0, 0⟩, [])).2
          = .ok (rs.getD i ⟨[], 0, 0⟩) := by
  intro tags
  induction tags with
  | nil =>
    intro rs h
    unfold execGroups at h
    have hrs : rs = [] := (Except.ok.inj h).symm
    subst hrs
    exact ⟨rfl, fun i hi => absurd hi (by simp)⟩
  | cons p rest ih =>
    intro rs h
    obtain ⟨g, ams⟩ := p
    unfold execGroups at h
    split at h
    · simp at h
    · rename_i r hr
      split at h
      · simp at h
      · rename_i rs' hrs
        have hinj : r :: rs' = rs := Except.ok.inj h
        obtain ⟨hlen, hidx⟩ := ih rs' hrs
        subst hinj
        constructor
        · simp [hlen]
        · intro i hi
          cases i with
          | zero => simpa using hr
          | succ n =>
            have := hidx n (by simpa using hi)
            simpa using this

/-! ### Scanner invariant: every produced attribute-map list is nonempty -/

theorem parseArgs_join_ne_nil (tls : List Str) (x : Str) (hx : x ∈ tls)
    (hinf : denoMark <:+: x) :
    parseDenoTagArgs (List.intercalate [' '] tls) ≠ [] :=
  parseDenoTagArgs_ne_nil _ (hinf.trans (mem_infix_intercalate [' '] tls x hx))

theorem scanStep_closing_multi (st : ScanState) (i : Nat) (l : Str)
    (hM : st.isMultiLine = true)
    (hC : 1 + countOcc denoMark l = countOcc selfCloseMark l + countOcc explicitCloseMark l) :
    scanStep st i l = ⟨false, [], st.lineStart, st.lineStartPad,
      st.tags ++ [(⟨st.lineStart, i, st.lineStartPad⟩,
        parseDenoTagArgs (List.intercalate [' '] (st.tagLines ++ [l])))]⟩ := by
  have hpush : (0 < countOcc denoMark l ∨ st.isMultiLine = true) := Or.inr hM
  have hclose : ((st.isMultiLine = true ∨ 0 < countOcc denoMark l) ∧
      (if st.isMultiLine = true then 1 else 0) + countOcc denoMark l
        = countOcc selfCloseMark l + countOcc explicitCloseMark l) :=
    ⟨Or.inl hM, by rw [if_pos hM]; exact hC⟩
  simp only [scanStep]
  rw [if_pos hclose, if_pos hpush, if_pos hM]

theorem scanStep_carry_multi (st : ScanState) (i : Nat) (l : Str)
    (hM : st.isMultiLine = true)
    (hC : ¬ (1 + countOcc denoMark l
      = countOcc selfCloseMark l + countOcc explicitCloseMark l)) :
    scanStep st i l = ⟨true, st.tagLines ++ [l], st.lineStart, st.lineStartPad, st.tags⟩ := by
  have hpush : (0 < countOcc denoMark l ∨ st.isMultiLine = true) := Or.inr hM
  have hnc : ¬ ((if st.isMultiLine = true then 1 else 0) + countOcc denoMark l
      = countOcc selfCloseMark l + countOcc explicitCloseMark l) := by
    rw [if_pos hM]; exact hC
  have hnclose : ¬ ((st.isMultiLine = true ∨ 0 < countOcc denoMark l) ∧
      (if st.isMultiLine = true then 1 else 0) + countOcc denoMark l
        = countOcc selfCloseMark l + countOcc explicitCloseMark l) :=
    fun hh => hnc hh.2
  have hd : ((st.isMultiLine = true ∨ 0 < countOcc denoMark l) ∧
      ¬ (1 + countOcc denoMark l
        = countOcc selfCloseMark l + countOcc explicitCloseMark l)) := ⟨Or.inl hM, hC⟩
  simp only [scanStep]
  rw [if_neg hnclose, if_pos hpush, if_pos hM, if_pos hM, decide_eq_true hd]

theorem scanStep_closing_fresh (st : ScanState) (i : Nat) (l : Str)
    (hM : ¬ (st.isMultiLine = true)) (hO : 0 < countOcc denoMark l)
    (hC : countOcc denoMark l = countOcc selfCloseMark l + countOcc explicitCloseMark l) :
    scanStep st i l = ⟨false, [], i, leadingWs l,
      st.tags ++ [(⟨i, i, leadingWs l⟩,
        parseDenoTagArgs (List.intercalate [' '] (st.tagLines ++ [l])))]⟩ := by
  have hpush : (0 < countOcc denoMark l ∨ st.isMultiLine = true) := Or.inl hO
  have hclose : ((st.isMultiLine = true ∨ 0 < countOcc denoMark l) ∧
      (if st.isMultiLine = true then 1 else 0) + countOcc denoMark l
        = countOcc selfCloseMark l + countOcc explicitCloseMark l) :=
    ⟨Or.inr hO, by rw [if_neg hM]; simpa using hC⟩
  simp only [scanStep]
  rw [if_pos hclose, if_pos hpush, if_neg hM]

theorem scanStep_open_fresh (st : ScanState) (i : Nat) (l : Str)
    (hM : ¬ (st.isMultiLine = true)) (hO : 0 < countOcc denoMark l)
    (hC : ¬ (countOcc denoMark l = countOcc selfCloseMark l + countOcc explicitCloseMark l)) :
    scanStep st i l = ⟨true, st.tagLines ++ [l], i, leadingWs l, st.tags⟩ := by
  have hpush : (0 < countOcc denoMark l ∨ st.isMultiLine = true) := Or.inl hO
  have hnc : ¬ ((if st.isMultiLine = true then 1 else 0) + countOcc denoMark l
      = countOcc selfCloseMark l + countOcc explicitCloseMark l) := by
    rw [if_neg hM]; simpa using hC
  have hnclose : ¬ ((st.isMultiLine = true ∨ 0 < countOcc denoMark l) ∧
      (if st.isMultiLine = true then 1 else 0) + countOcc denoMark l
        = countOcc selfCloseMark l + countOcc explicitCloseMark l) :=
    fun hh => hnc hh.2
  have hd : ((st.isMultiLine = true ∨ 0 < countOcc denoMark l) ∧
      ¬ (0 + countOcc denoMark l
        = countOcc selfCloseMark l + countOcc explicitCloseMark l)) :=
    ⟨Or.inr hO, fun hh => hC (by simpa using hh)⟩
  simp only [scanStep]
  rw [if_neg hnclose, if_pos hpush, if_neg hM, if_neg hM, decide_eq_true hd]

theorem scanStep_skip (st : ScanState) (i : Nat) (l : Str)
    (hM : ¬ (st.isMultiLine = true)) (hO : ¬ (0 < countOcc denoMark l)) :
    scanStep st i l = ⟨false, st.tagLines, st.lineStart, st.lineStartPad, st.tags⟩ := by
  have hnpush : ¬ (0 < countOcc denoMark l ∨ st.isMultiLine = true) := by
    rintro (h | h)
    · exact hO h
    · exact hM h
  have hnopen : ¬ (st.isMultiLine = true ∨ 0 < countOcc denoMark l) := by
    rintro (h | h)
    · exact hM h
    · exact hO h
  have hnclose : ¬ ((st.isMultiLine = true ∨ 0 < countOcc denoMark l) ∧
      (if st.isMultiLine = true then 1 else 0) + countOcc denoMark l
        = countOcc selfCloseMark l + countOcc explicitCloseMark l) :=
    fun hh => hnopen hh.1
  have hd : ¬ ((st.isMultiLine = true ∨ 0 < countOcc denoMark l) ∧
      ¬ (0 + countOcc denoMark l
        = countOcc selfCloseMark l + countOcc explicitCloseMark l)) :=
    fun hh => hnopen hh.1
  simp only [scanStep]
  rw [if_neg hnclose, if_neg hnpush, if_neg hM, decide_eq_false hd]

theorem scanStep_nonempty (st : ScanState) (i : Nat) (l : Str)
    (h1 : st.isMultiLine = true → ∃ x ∈ st.tagLines, denoMark <:+: x)
    (h2 : ∀ p ∈ st.tags, p.2 ≠ []) :
    ((scanStep st i l).isMultiLine = true →
      ∃ x ∈ (scanStep st i l).tagLines, denoMark <:+: x) ∧
    (∀ p ∈ (scanStep st i l).tags, p.2 ≠ []) := by
  by_cases hM : st.isMultiLine = true
  · by_cases hC : 1 + countOcc denoMark l
        = countOcc selfCloseMark l + countOcc explicitCloseMark l
    · rw [scanStep_closing_multi st i l hM hC]
      refine ⟨by simp, ?_⟩
      intro p hp
      rcases List.mem_append.mp hp with hh | hh
      · exact h2 p hh
      · obtain ⟨x, hx, hinf⟩ := h1 hM
        simp only [List.mem_singleton] at hh
        rw [hh]
        exact parseArgs_join_ne_nil _ x (List.mem_append_left _ hx) hinf
    · rw [scanStep_carry_multi st i l hM hC]
      refine ⟨?_, h2⟩
      intro _
      obtain ⟨x, hx, hinf⟩ := h1 hM
      exact ⟨x, List.mem_append_left _ hx, hinf⟩
  · by_cases hO : 0 < countOcc denoMark l
    · by_cases hC : countOcc denoMark l
          = countOcc selfCloseMark l + countOcc explicitCloseMark l
      · rw [scanStep_closing_fresh st i l hM hO hC]
        refine ⟨by simp, ?_⟩
        intro p hp
        rcases List.mem_append.mp hp with hh | hh
        · exact h2 p hh
        · simp only [List.mem_singleton] at hh
          rw [hh]
          exact parseArgs_join_ne_nil _ l (List.mem_append_right _ (by simp))
            (infix_of_countOcc_pos _ _ hO)
      · rw [scanStep_open_fresh st i l hM hO hC]
        refine ⟨?_, h2⟩
        intro _
        exact ⟨l, List.mem_append_right _ (by simp), infix_of_countOcc_pos _ _ hO⟩
    · rw [scanStep_skip st i l hM hO]
      exact ⟨by simp, h2⟩

theorem scanLines_nonempty : ∀ (lines : List Str) (i : Nat) (st : ScanState),
    (st.isMultiLine = true → ∃ x ∈ st.tagLines, denoMark <:+: x) →
    (∀ p ∈ st.tags, p.2 ≠ []) →
    ∀ p ∈ (scanLines st i lines).tags, p.2 ≠ [] := by
  intro lines
  induction lines with
  | nil => intro i st _ h2; exact h2
  | cons l rest ih =>
    intro i st h1 h2
    obtain ⟨g1, g2⟩ := scanStep_nonempty st i l h1 h2
    exact ih (i + 1) _ g1 g2

theorem parseDenoTag_maps_ne_nil (text : Str) :
    ∀ p ∈ (parseDenoTag text).tags, p.2 ≠ [] := by
  unfold parseDenoTag
  exact scanLines_nonempty _ 0 initScan (by intro h; simp [initScan] at h)
    (by intro p hp; simp [initScan] at hp)

/-! ### Scanner invariant: the recorded indent is the leading-whitespace
    count of the group's opening line -/

theorem scanStep_indent (lines : List Str) (st : ScanState) (i : Nat) (l : Str)
    (hi : i < lines.length) (hget : lines.getD i [] = l)
    (h1 : st.isMultiLine = true →
      st.lineStart < lines.length ∧
      st.lineStartPad = leadingWs (lines.getD st.lineStart []))
    (h2 : ∀ p ∈ st.tags, p.1.lineOpened < lines.length ∧
      p.1.indent = leadingWs (lines.getD p.1.lineOpened [])) :
    ((scanStep st i l).isMultiLine = true →
      (scanStep st i l).lineStart < lines.length ∧
      (scanStep st i l).lineStartPad = leadingWs (lines.getD (scanStep st i l).lineStart [])) ∧
    (∀ p ∈ (scanStep st i l).tags, p.1.lineOpened < lines.length ∧
      p.1.indent = leadingWs (lines.getD p.1.lineOpened [])) := by
  by_cases hM : st.isMultiLine = true
  · by_cases hC : 1 + countOcc denoMark l
        = countOcc selfCloseMark l + countOcc explicitCloseMark l
    · rw [scanStep_closing_multi st i l hM hC]
      refine ⟨by simp, ?_⟩
      intro p hp
      rcases List.mem_append.mp hp with hh | hh
      · exact h2 p hh
      · simp only [List.mem_singleton] at hh
        rw [hh]
        exact h1 hM
    · rw [scanStep_carry_multi st i l hM hC]
      exact ⟨fun _ => h1 hM, h2⟩
  · by_cases hO : 0 < countOcc denoMark l
    · by_cases hC : countOcc denoMark l
          = countOcc selfCloseMark l + countOcc explicitCloseMark l
      · rw [scanStep_closing_fresh st i l hM hO hC]
        refine ⟨by simp, ?_⟩
        intro p hp
        rcases List.mem_append.mp hp with hh | hh
        · exact h2 p hh
        · simp only [List.mem_singleton] at hh
          rw [hh]
          exact ⟨hi, by rw [hget]⟩
      · rw [scanStep_open_fresh st i l hM hO hC]
        exact ⟨fun _ => ⟨hi, by rw [hget]⟩, h2⟩
    · rw [scanStep_skip st i l hM hO]
      exact ⟨by simp, h2⟩

theorem scanLines_indent (lines : List Str) : ∀ (rest : List Str) (i : Nat) (st : ScanState),
    lines.drop i = rest →
    (st.isMultiLine = true →
      st.lineStart < lines.length ∧
      st.lineStartPad = leadingWs (lines.getD st.lineStart [])) →
    (∀ p ∈ st.tags, p.1.lineOpened < lines.length ∧
      p.1.indent = leadingWs (lines.getD p.1.lineOpened [])) →
    ∀ p ∈ (scanLines st i rest).tags, p.1.lineOpened < lines.length ∧
      p.1.indent = leadingWs (lines.getD p.1.lineOpened []) := by
  intro rest
  induction rest with
  | nil => intro i st _ _ h2; exact h2
  | cons l rest' ih =>
    intro i st hdrop h1 h2
    have hi : i < lines.length := by
      by_contra hc
      rw [List.drop_eq_nil_of_le (by omega)] at hdrop
      exact List.noConfusion hdrop
    have hget : lines.getD i [] = l := by
      have hsome : lines[i]? = some l := by
        rw [← List.head?_drop, hdrop]
        rfl
      rw [List.getD_eq_getElem?_getD, hsome]
      rfl
    have hdrop' : lines.drop (i + 1) = rest' := by
      rw [← List.tail_drop, hdrop]
      rfl
    obtain ⟨g1, g2⟩ := scanStep_indent lines st i l hi hget h1 h2
    exact ih (i + 1) _ hdrop' g1 g2

theorem parseDenoTag_indent (text : Str) :
    ∀ p ∈ (parseDenoTag text).tags,
      p.1.lineOpened < (splitCh '\n' text).length ∧
      p.1.indent = leadingWs ((splitCh '\n' text).getD p.1.lineOpened []) := by
  unfold parseDenoTag
  exact scanLines_indent (splitCh '\n' text) _ 0 initScan rfl
    (by intro h; simp [initScan] at h) (by intro p hp; simp [initScan] at hp)

/-! ### The composer's contents, line by line -/

theorem contents_lines (k : Nat) (s : Str) :
    splitCh '\n'
        (List.intercalate ['\n']
          ((splitCh '\n' s).map (fun line => padStart line (k + line.length) ' ')))
      = (splitCh '\n' s).map (fun line => List.replicate k ' ' ++ line) := by
  simp only [padStart_add]
  apply splitCh_intercalate
  · intro hc
    rw [List.map_eq_nil_iff] at hc
    exact splitCh_ne_nil '\n' s hc
  · intro p hp
    obtain ⟨l, hl, rfl⟩ := List.mem_map.mp hp
    intro hmem
    rcases List.mem_append.mp hmem with hh | hh
    · have := List.eq_of_mem_replicate hh
      exact absurd this (by decide)
    · exact not_mem_of_mem_splitCh '\n' s l hl hh

/-- C3: for every occurrence group found in the document, the composed
    contents consists of exactly the lines of the newline-joined action
    outputs, each prefixed with exactly `indent` space characters (so no
    line, not even an empty one, is truncated), and the group's `indent` is
    the leading-whitespace count of the document line at which the group
    opened. -/
theorem composer_padding (text : Str) (b : Backends) (rs : List Result) (i : Nat)
    (outs : List Str)
    (h : executeDenoTags (parseDenoTag text) b = .ok rs)
    (hi : i < (parseDenoTag text).tags.length)
    (houts : sequenceOutputs b ((parseDenoTag text).tags.getD i (⟨0, 0, 0⟩, [])).2
      = .ok outs) :
    splitCh '\n' ((rs.getD i ⟨[], 0, 0⟩).contents)
      = (splitCh '\n' (List.intercalate ['\n'] outs)).map
          (fun line =>
            List.replicate ((parseDenoTag text).tags.getD i (⟨0, 0, 0⟩, [])).1.indent ' '
              ++ line)
    ∧ ((parseDenoTag text).tags.getD i (⟨0, 0, 0⟩, [])).1.indent
        = leadingWs ((splitCh '\n' text).getD
            ((parseDenoTag text).tags.getD i (⟨0, 0, 0⟩, [])).1.lineOpened []) := by
  unfold executeDenoTags at h
  obtain ⟨hlen, hidx⟩ := execGroups_ok b (parseDenoTag text).tags rs h
  have hexec := hidx i hi
  obtain ⟨outs', houts', hr⟩ := execGroup_ok _ _ _ _ hexec
  have houtseq : outs' = outs := Except.ok.inj (houts'.symm.trans houts)
  subst houtseq
  constructor
  · rw [hr]
    exact contents_lines _ _
  · have hmem : (parseDenoTag text).tags.getD i (⟨0, 0, 0⟩, []) ∈ (parseDenoTag text).tags := by
      rw [List.getD_eq_get _ _ hi]
      exact List.get_mem _ _ _
    exact (parseDenoTag_indent text _ hmem).2

/-- Witness for C3: a tag at indent 2 whose backend output has three lines
    (one of them empty); each line gains exactly two leading spaces. -/
theorem composer_padding_witness :
    (executeDenoTags (parseDenoTag ("  <deno run=\"f.ts\" />".toList))
        (mockBackends ("a\n\nb".toList))
      = .ok [⟨"  a\n  \n  b".toList, 0, 0⟩]) ∧
    (0 < (parseDenoTag ("  <deno run=\"f.ts\" />".toList)).tags.length) ∧
    (sequenceOutputs (mockBackends ("a\n\nb".toList))
        ((parseDenoTag ("  <deno run=\"f.ts\" />".toList)).tags.getD 0 (⟨0, 0, 0⟩, [])).2
      = .ok ["a\n\nb".toList]) ∧
    (splitCh '\n' (([⟨"  a\n  \n  b".toList, 0, 0⟩] : List Result).getD 0 ⟨[], 0, 0⟩).contents
      = (splitCh '\n' (List.intercalate ['\n'] ["a\n\nb".toList])).map
          (fun line =>
            List.replicate ((parseDenoTag ("  <deno run=\"f.ts\" />".toList)).tags.getD 0
              (⟨0, 0, 0⟩, [])).1.indent ' ' ++ line)
      ∧ ((parseDenoTag ("  <deno run=\"f.ts\" />".toList)).tags.getD 0 (⟨0, 0, 0⟩, [])).1.indent
          = leadingWs ((splitCh '\n' ("  <deno run=\"f.ts\" />".toList)).getD
              ((parseDenoTag ("  <deno run=\"f.ts\" />".toList)).tags.getD 0
                (⟨0, 0, 0⟩, [])).1.lineOpened [])) :=
  ⟨by decide, by decide, by decide,
    composer_padding ("  <deno run=\"f.ts\" />".toList) (mockBackends ("a\n\nb".toList))
      [⟨"  a\n  \n  b".toList, 0, 0⟩] 0 ["a\n\nb".toList]
      (by decide) (by decide) (by decide)⟩

/-- C6: every occurrence group found by the scanner yields exactly one
    `Result`, in document scan order (the i-th result carries the i-th
    group's line limits); a group with zero attribute maps would yield
    empty contents (vacuously so: the scanner never produces such a
    group, as `parseDenoTag_maps_ne_nil` shows). -/
theorem one_result_per_group (text : Str) (b : Backends) (rs : List Result)
    (h : executeDenoTags (parseDenoTag text) b = .ok rs) :
    rs.length = (parseDenoTag text).tags.length
    ∧ (∀ i, i < (parseDenoTag text).tags.length →
        (rs.getD i ⟨[], 0, 0⟩).from_
            = ((parseDenoTag text).tags.getD i (⟨0, 0, 0⟩, [])).1.lineOpened
        ∧ (rs.getD i ⟨[], 0, 0⟩).to_
            = ((parseDenoTag text).tags.getD i (⟨0, 0, 0⟩, [])).1.lineClosed)
    ∧ (∀ i, i < (parseDenoTag text).tags.length →
        ((parseDenoTag text).tags.getD i (⟨0, 0, 0⟩, [])).2 = [] →
        (rs.getD i ⟨[], 0, 0⟩).contents = []) := by
  unfold executeDenoTags at h
  obtain ⟨hlen, hidx⟩ := execGroups_ok b (parseDenoTag text).tags rs h
  refine ⟨hlen, ?_, ?_⟩
  · intro i hi
    obtain ⟨outs, _, hr⟩ := execGroup_ok _ _ _ _ (hidx i hi)
    rw [hr]
    exact ⟨rfl, rfl⟩
  · intro i hi hnil
    have hmem : (parseDenoTag text).tags.getD i (⟨0, 0, 0⟩, []) ∈ (parseDenoTag text).tags := by
      rw [List.getD_eq_get _ _ hi]
      exact List.get_mem _ _ _
    exact absurd hnil (parseDenoTag_maps_ne_nil text _ hmem)

/-- Witness for C6 on a two-group document. -/
theorem one_result_per_group_witness :
    (executeDenoTags
        (parseDenoTag ("<deno run=\"a\" />\nmid\n  <deno run=\"b\" />".toList))
        (mockBackends ("o".toList))
      = .ok [⟨"o".toList, 0, 0⟩, ⟨"  o".toList, 2, 2⟩]) ∧
    ([⟨"o".toList, 0, 0⟩, ⟨"  o".toList, 2, 2⟩] : List Result).length
      = (parseDenoTag ("<deno run=\"a\" />\nmid\n  <deno run=\"b\" />".toList)).tags.length :=
  ⟨by decide,
    (one_result_per_group ("<deno run=\"a\" />\nmid\n  <deno run=\"b\" />".toList)
      (mockBackends ("o".toList)) _ (by decide)).1⟩

/-! ### Lemmas about the dispatcher's argument-reading fold -/

theorem classifyFold_no_keys : ∀ (m : DenoTagAttributes) (a f : Str) (fl : List Str),
    (∀ p ∈ m, p.1 ≠ runKey ∧ p.1 ≠ bundleKey) →
    m.foldl classifyStep (a, f, fl)
      = (a, f, fl ++ m.map (fun p => p.1 ++ '=' :: p.2)) := by
  intro m
  induction m with
  | nil => intro a f fl _; simp
  | cons kv rest ih =>
    intro a f fl h
    have hk := h kv (by simp)
    rw [List.foldl_cons,
      show classifyStep (a, f, fl) kv = (a, f, fl ++ [kv.1 ++ '=' :: kv.2]) by
        simp [classifyStep, hk.1, hk.2],
      ih a f _ (fun p hp => h p (by simp [hp]))]
    simp

theorem classifyFold_action (m : DenoTagAttributes) :
    ∀ (acc : Str × Str × List Str), bundleKey ∉ m.map Prod.fst →
      (m.foldl classifyStep acc).1 = acc.1 := by
  induction m with
  | nil => intro acc _; rfl
  | cons kv rest ih =>
    intro acc h
    have hkb : kv.1 ≠ bundleKey := fun he => h (List.mem_map.mpr ⟨kv, by simp, he⟩)
    have hrest : bundleKey ∉ rest.map Prod.fst := fun hm => h (by simp [hm])
    rw [List.foldl_cons, ih _ hrest]
    by_cases hr : kv.1 = runKey
    · simp [classifyStep, hr]
    · simp [classifyStep, hr, hkb]

theorem classifyFold_bundle (m : DenoTagAttributes) :
    ∀ (acc : Str × Str × List Str), bundleKey ∈ m.map Prod.fst →
      (m.foldl classifyStep acc).1 = bundleAct := by
  induction m with
  | nil => intro acc h; simp at h
  | cons kv rest ih =>
    intro acc h
    by_cases hb : bundleKey ∈ rest.map Prod.fst
    · rw [List.foldl_cons]
      exact ih _ hb
    · have hkv : kv.1 = bundleKey := by
        rcases List.mem_map.mp h with ⟨q, hq, he⟩
        rcases List.mem_cons.mp hq with h1 | h1
        · rw [h1] at he
          exact he
        · exact absurd (List.mem_map.mpr ⟨q, h1, he⟩) hb
      rw [List.foldl_cons, classifyFold_action rest _ hb]
      simp [classifyStep, hkv, show ¬ (bundleKey = runKey) from by decide]

theorem classifyArgs_action_run (m : DenoTagAttributes)
    (h : bundleKey ∉ m.map Prod.fst) : (classifyArgs m).1 = runAct :=
  classifyFold_action m _ h

theorem classifyArgs_action_bundle (m : DenoTagAttributes)
    (h : bundleKey ∈ m.map Prod.fst) : (classifyArgs m).1 = bundleAct :=
  classifyFold_bundle m _ h

theorem classifyArgs_run_spec (m : DenoTagAttributes) (v : Str)
    (hnd : (m.map Prod.fst).Nodup) (hv : (runKey, v) ∈ m)
    (hnb : bundleKey ∉ m.map Prod.fst) :
    classifyArgs m = (runAct, jsSliceInner v,
      (m.filter (fun p => decide (¬ (p.1 = runKey ∨ p.1 = bundleKey)))).map
        (fun p => p.1 ++ '=' :: p.2)) := by
  obtain ⟨m1, m2, rfl⟩ := List.append_of_mem hv
  have hmap : (m1 ++ (runKey, v) :: m2).map Prod.fst
      = m1.map Prod.fst ++ runKey :: m2.map Prod.fst := by simp
  rw [hmap] at hnd hnb
  have hnb1 : bundleKey ∉ m1.map Prod.fst := fun hm => hnb (by simp [hm])
  have hnb2 : bundleKey ∉ m2.map Prod.fst := fun hm => hnb (by simp [hm])
  obtain ⟨hn1, hn2, hdisj⟩ := List.nodup_append.mp hnd
  have hnr1 : runKey ∉ m1.map Prod.fst := fun hm => hdisj hm (by simp)
  have hnr2 : runKey ∉ m2.map Prod.fst := (List.nodup_cons.mp hn2).1
  have hm1 : ∀ p ∈ m1, p.1 ≠ runKey ∧ p.1 ≠ bundleKey := by
    intro p hp
    exact ⟨fun he => hnr1 (List.mem_map.mpr ⟨p, hp, he⟩),
      fun he => hnb1 (List.mem_map.mpr ⟨p, hp, he⟩)⟩
  have hm2 : ∀ p ∈ m2, p.1 ≠ runKey ∧ p.1 ≠ bundleKey := by
    intro p hp
    exact ⟨fun he => hnr2 (List.mem_map.mpr ⟨p, hp, he⟩),
      fun he => hnb2 (List.mem_map.mpr ⟨p, hp, he⟩)⟩
  have hf1 : m1.filter (fun p => decide (¬ (p.1 = runKey ∨ p.1 = bundleKey))) = m1 :=
    List.filter_eq_self.mpr (fun p hp => by
      have hq := hm1 p hp
      simp [hq.1, hq.2])
  have hf2 : m2.filter (fun p => decide (¬ (p.1 = runKey ∨ p.1 = bundleKey))) = m2 :=
    List.filter_eq_self.mpr (fun p hp => by
      have hq := hm2 p hp
      simp [hq.1, hq.2])
  unfold classifyArgs
  rw [List.foldl_append, classifyFold_no_keys m1 _ _ _ hm1, List.foldl_cons,
    show classifyStep (runAct, [], [] ++ m1.map (fun p => p.1 ++ '=' :: p.2)) (runKey, v)
        = (runAct, jsSliceInner v, [] ++ m1.map (fun p => p.1 ++ '=' :: p.2)) by
      simp [classifyStep],
    classifyFold_no_keys m2 _ _ _ hm2]
  rw [List.filter_append, List.filter_cons, hf1, hf2]
  simp

/-- C2: for every attribute map dispatched as a run action (it has a `run`
    attribute with value `v`, no `bundle` attribute, and uniquely-named
    attributes as in a JS Map), the run backend receives exactly the
    configured base command, then `v` with its first and last character (the
    quotes) removed, then every other attribute in encounter order rendered
    as `key=value` with the value keeping its quotes; in particular a
    boolean attribute `k` (tokenized with value `"true"`) appears among the
    forwarded flags as `k="true"`. -/
theorem runDeno_cmd (m : DenoTagAttributes) (b : Backends) (v : Str)
    (hnd : (m.map Prod.fst).Nodup) (hv : (runKey, v) ∈ m)
    (hnb : bundleKey ∉ m.map Prod.fst) :
    (runDeno m b).runnerCmds
      = [b.baseCmd ++ [jsSliceInner v] ++
          (m.filter (fun p => decide (¬ (p.1 = runKey ∨ p.1 = bundleKey)))).map
            (fun p => p.1 ++ '=' :: p.2)]
    ∧ ∀ k : Str, (k, trueLit) ∈ m → k ≠ runKey → k ≠ bundleKey →
        (k ++ '=' :: trueLit) ∈
          (m.filter (fun p => decide (¬ (p.1 = runKey ∨ p.1 = bundleKey)))).map
            (fun p => p.1 ++ '=' :: p.2) := by
  have hspec := classifyArgs_run_spec m v hnd hv hnb
  constructor
  · simp only [runDeno, hspec]
    rw [if_pos trivial]
    cases hr : b.runner (b.baseCmd ++ [jsSliceInner v] ++
        (m.filter (fun p => decide (¬ (p.1 = runKey ∨ p.1 = bundleKey)))).map
          (fun p => p.1 ++ '=' :: p.2)) with
    | ok out => rfl
    | error e => rfl
  · intro k hk hr hb2
    refine List.mem_map.mpr ⟨(k, trueLit), ?_, rfl⟩
    refine List.mem_filter.mpr ⟨hk, ?_⟩
    simp [hr, hb2]

/-- Witness for C2: `<deno run="f.ts" flag />` semantics at the dispatcher. -/
theorem runDeno_cmd_witness :
    ((([(runKey, "\"f.ts\"".toList), ("flag".toList, trueLit)] : DenoTagAttributes).map
        Prod.fst).Nodup
      ∧ (runKey, "\"f.ts\"".toList)
          ∈ ([(runKey, "\"f.ts\"".toList), ("flag".toList, trueLit)] : DenoTagAttributes)
      ∧ bundleKey
          ∉ ([(runKey, "\"f.ts\"".toList), ("flag".toList, trueLit)] : DenoTagAttributes).map
              Prod.fst) ∧
    (runDeno [(runKey, "\"f.ts\"".toList), ("flag".toList, trueLit)]
        (mockBackends ("x".toList))).runnerCmds
      = [["deno".toList, "run".toList, "--allow-read".toList, "--allow-run".toList,
          "f.ts".toList, "flag=\"true\"".toList]] :=
  ⟨⟨by decide, by decide, by decide⟩,
    (runDeno_cmd [(runKey, "\"f.ts\"".toList), ("flag".toList, trueLit)]
        (mockBackends ("x".toList)) ("\"f.ts\"".toList)
        (by decide) (by decide) (by decide)).1.trans (by decide)⟩

/-! ### Totality of the pipeline when the bundler never throws -/

theorem runDeno_result_isOk (m : DenoTagAttributes) (b : Backends)
    (hb : ∀ f, ∃ s, b.bundler f = .ok s) : ∃ out, (runDeno m b).result = .ok out := by
  simp only [runDeno]
  by_cases ha : (classifyArgs m).1 = runAct
  · rw [if_pos ha]
    cases hr : b.runner (b.baseCmd ++ [(classifyArgs m).2.1] ++ (classifyArgs m).2.2) with
    | ok out => exact ⟨out, rfl⟩
    | error e => exact ⟨[], rfl⟩
  · rw [if_neg ha]
    obtain ⟨s, hs⟩ := hb (classifyArgs m).2.1
    rw [hs]
    exact ⟨s, rfl⟩

theorem sequenceOutputs_isOk (b : Backends) (hb : ∀ f, ∃ s, b.bundler f = .ok s) :
    ∀ ams, ∃ outs, sequenceOutputs b ams = .ok outs := by
  intro ams
  induction ams with
  | nil => exact ⟨[], rfl⟩
  | cons m ms ih =>
    obtain ⟨out, hout⟩ := runDeno_result_isOk m b hb
    obtain ⟨outs, houts⟩ := ih
    exact ⟨out :: outs, by simp [sequenceOutputs, hout, houts]⟩

theorem execGroups_isOk (b : Backends) (hb : ∀ f, ∃ s, b.bundler f = .ok s) :
    ∀ tags, ∃ rs, execGroups b tags = .ok rs := by
  intro tags
  induction tags with
  | nil => exact ⟨[], rfl⟩
  | cons p rest ih =>
    obtain ⟨g, ams⟩ := p
    obtain ⟨outs, houts⟩ := sequenceOutputs_isOk b hb ams
    obtain ⟨rs, hrs⟩ := ih
    cases hg : execGroup b g ams with
    | error e =>
      exfalso
      simp [execGroup, houts] at hg
    | ok r =>
      exact ⟨r :: rs, by simp [execGroups, hg, hrs]⟩

/-- C9: a run-backend failure is confined to its occurrence: the backend is
    attempted exactly once (one recorded runner invocation, with the full
    cmd), the error is logged to the error channel, the occurrence's output
    degrades to the empty string (the dispatch still succeeds), and — since
    run failures never escape — the whole transformation still returns a
    document whenever the bundler does not throw (in particular for every
    combination of failing run backends). -/
theorem run_failure_semantics :
    (∀ (m : DenoTagAttributes) (b : Backends) (e : Str),
        bundleKey ∉ m.map Prod.fst →
        b.runner (runCmdOf m b) = .error e →
        runDeno m b
          = { result := .ok [], errLog := [e], runnerCmds := [runCmdOf m b],
              bundlerFiles := [] })
    ∧ (∀ (text : Str) (b : Backends),
        (∀ f, ∃ s, b.bundler f = .ok s) → ∃ out, denoTag text b = .ok out) := by
  constructor
  · intro m b e hnb hre
    have ha := classifyArgs_action_run m hnb
    unfold runCmdOf at hre ⊢
    simp only [runDeno]
    rw [ha, if_pos rfl, hre]
  · intro text b hb
    obtain ⟨rs, hrs⟩ := execGroups_isOk b hb (parseDenoTag text).tags
    exact ⟨replaceTagsWithResults text rs, by simp [denoTag, executeDenoTags, hrs]⟩

/-- Witness for C9: a failing runner on `<deno run="f" />`. -/
theorem run_failure_semantics_witness :
    (bundleKey ∉ ([(runKey, "\"f\"".toList)] : DenoTagAttributes).map Prod.fst) ∧
    (runDeno [(runKey, "\"f\"".toList)] (mockFailRunner ("boom".toList))
      = { result := .ok [], errLog := ["boom".toList],
          runnerCmds := [runCmdOf [(runKey, "\"f\"".toList)] (mockFailRunner ("boom".toList))],
          bundlerFiles := [] }) ∧
    ((denoTag ("<deno run=\"f\" />".toList) (mockFailRunner ("boom".toList))).isOk = true) :=
  ⟨by decide,
    run_failure_semantics.1 [(runKey, "\"f\"".toList)] (mockFailRunner ("boom".toList))
      ("boom".toList) (by decide) rfl,
    by
      obtain ⟨out, hout⟩ := run_failure_semantics.2 ("<deno run=\"f\" />".toList)
        (mockFailRunner ("boom".toList)) (fun f => ⟨[], rfl⟩)
      rw [hout]
      rfl⟩

/-- C10: a bundle-backend failure is not caught by the core: `runDeno`
    returns it as an error (and never touches the run backend), and the
    whole `denoTag` call rejects with that error, producing no document. -/
theorem bundle_failure_propagates :
    (∀ (m : DenoTagAttributes) (b : Backends) (e : Str),
        bundleKey ∈ m.map Prod.fst →
        b.bundler ((classifyArgs m).2.1) = .error e →
        (runDeno m b).result = .error e ∧ (runDeno m b).runnerCmds = [])
    ∧ (∀ (b : Backends) (e : Str),
        b.bundler ("f.ts".toList) = .error e →
        denoTag ("<deno bundle=\"f.ts\" />".toList) b = .error e) := by
  constructor
  · intro m b e hb hbe
    have ha := classifyArgs_action_bundle m hb
    have hne : ¬ ((classifyArgs m).1 = runAct) := by rw [ha]; decide
    constructor
    · simp only [runDeno]
      rw [if_neg hne, hbe]
    · simp only [runDeno]
      rw [if_neg hne, hbe]
  · intro b e hbe
    have hp : (parseDenoTag ("<deno bundle=\"f.ts\" />".toList)).tags
        = [(⟨0, 0, 0⟩, [[(bundleKey, "\"f.ts\"".toList)]])] := by decide
    have hc : classifyArgs [(bundleKey, "\"f.ts\"".toList)]
        = (bundleAct, "f.ts".toList, ([] : List Str)) := by decide
    have hrd : (runDeno [(bundleKey, "\"f.ts\"".toList)] b).result = .error e := by
      simp only [runDeno, hc]
      rw [if_neg (show ¬ (bundleAct = runAct) from by decide), hbe]
    have hseq : sequenceOutputs b [[(bundleKey, "\"f.ts\"".toList)]] = .error e := by
      simp only [sequenceOutputs]
      rw [hrd]
    have hg : execGroup b ⟨0, 0, 0⟩ [[(bundleKey, "\"f.ts\"".toList)]] = .error e := by
      simp only [execGroup]
      rw [hseq]
    have hexecTags : executeDenoTags
        (parseDenoTag ("<deno bundle=\"f.ts\" />".toList)) b = .error e := by
      unfold executeDenoTags
      rw [hp]
      simp only [execGroups]
      rw [hg]
    unfold denoTag
    rw [hexecTags]

/-- Witness for C10: a failing bundler on `<deno bundle="f.ts" />`. -/
theorem bundle_failure_propagates_witness :
    (bundleKey ∈ ([(bundleKey, "\"f\"".toList)] : DenoTagAttributes).map Prod.fst) ∧
    ((runDeno [(bundleKey, "\"f\"".toList)] (mockFailBundler ("boom".toList))).result
        = .error ("boom".toList)
      ∧ (runDeno [(bundleKey, "\"f\"".toList)] (mockFailBundler ("boom".toList))).runnerCmds
        = []) ∧
    (denoTag ("<deno bundle=\"f.ts\" />".toList) (mockFailBundler ("boom".toList))
      = .error ("boom".toList)) :=
  ⟨by decide,
    bundle_failure_propagates.1 [(bundleKey, "\"f\"".toList)] (mockFailBundler ("boom".toList))
      ("boom".toList) (by decide) rfl,
    bundle_failure_propagates.2 (mockFailBundler ("boom".toList)) ("boom".toList) rfl⟩

/-! ### C4: the one-line round trip -/

/-- C4 counterexample: on the one-line document
    `<html><script><deno run="x.ts" /></script></html>` with a run backend
    whose captured output is `42;`, `denoTag` returns `42;` — the entire
    line is replaced, the surrounding same-line markup is removed — and not
    `<html><script>42;</script></html>` as the claim states. -/
theorem roundtrip_cex :
    denoTag ("<html><script><deno run=\"x.ts\" /></script></html>".toList)
        (mockBackends ("42;".toList))
      = .ok ("42;".toList) ∧
    ¬ (denoTag ("<html><script><deno run=\"x.ts\" /></script></html>".toList)
        (mockBackends ("42;".toList))
      = .ok ("<html><script>42;</script></html>".toList)) :=
  ⟨by decide, by decide⟩

/-- C4 (amended): for the one-line document
    `<html><script><deno run="x.ts" /></script></html>` and every backend
    whose run action captures `42;`, the output is the single
    composed-output line `42;`: the tag's whole line (including the
    surrounding markup on that line) is removed and replaced by the padded
    backend output. -/
theorem roundtrip_one_line (b : Backends)
    (hr : b.runner (b.baseCmd ++ ["x.ts".toList]) = .ok ("42;".toList)) :
    denoTag ("<html><script><deno run=\"x.ts\" /></script></html>".toList) b
      = .ok ("42;".toList) := by
  have hp : (parseDenoTag ("<html><script><deno run=\"x.ts\" /></script></html>".toList)).tags
      = [(⟨0, 0, 0⟩, [[(runKey, "\"x.ts\"".toList)]])] := by decide
  have hc : classifyArgs [(runKey, "\"x.ts\"".toList)]
      = (runAct, "x.ts".toList, ([] : List Str)) := by decide
  have hrd : (runDeno [(runKey, "\"x.ts\"".toList)] b).result = .ok ("42;".toList) := by
    simp only [runDeno, hc]
    rw [if_pos trivial, List.append_nil, hr]
  have hseq : sequenceOutputs b [[(runKey, "\"x.ts\"".toList)]] = .ok ["42;".toList] := by
    simp only [sequenceOutputs]
    rw [hrd]
  have hg : execGroup b ⟨0, 0, 0⟩ [[(runKey, "\"x.ts\"".toList)]]
      = .ok ⟨"42;".toList, 0, 0⟩ := by
    simp only [execGroup]
    rw [hseq]
    decide
  have hexecTags : executeDenoTags
      (parseDenoTag ("<html><script><deno run=\"x.ts\" /></script></html>".toList)) b
      = .ok [⟨"42;".toList, 0, 0⟩] := by
    unfold executeDenoTags
    rw [hp]
    simp only [execGroups]
    rw [hg]
  unfold denoTag
  rw [hexecTags]
  decide

/-- Witness for the amended C4 at a concrete mock backend. -/
theorem roundtrip_one_line_witness :
    ((mockBackends ("42;".toList)).runner
        ((mockBackends ("42;".toList)).baseCmd ++ ["x.ts".toList]) = .ok ("42;".toList)) ∧
    denoTag ("<html><script><deno run=\"x.ts\" /></script></html>".toList)
        (mockBackends ("42;".toList)) = .ok ("42;".toList) :=
  ⟨rfl, roundtrip_one_line (mockBackends ("42;".toList)) rfl⟩

/-! ### C7: quoted values spanning several space-split tokens -/

/-- C7: when an attribute's quoted value spans two space-separated tokens
    (`k="a b"` arrives at the token loop as `k="a` and `b"`), the tokenizer
    emits the pair for `k` whose value is the two fragments concatenated
    with no separator: the interior space is dropped (`"a b"` is stored as
    `"ab"`, quotes included). -/
theorem tokenizer_drops_interior_spaces (k a b : Str)
    (hk1 : k ≠ []) (hk2 : '=' ∉ k)
    (ha1 : a ≠ []) (ha2 : ¬ (a.getLast? = some '\"')) (ha3 : '=' ∉ a)
    (hb : '=' ∉ b) :
    tokenizeAttrs [k ++ '=' :: '\"' :: a, b ++ ['\"']]
      = [(k, '\"' :: (a ++ (b ++ ['\"'])))] := by
  have hkl : 0 < k.length := List.length_pos.mpr hk1
  have hne1a : ¬ (k ++ '=' :: '\"' :: a = []) := by simp
  have hne1b : ¬ (k ++ '=' :: '\"' :: a = ['/']) := by
    intro h
    have hlen := congrArg List.length h
    simp at hlen
    omega
  have hmem1 : '=' ∈ k ++ '=' :: '\"' :: a := List.mem_append.mpr (Or.inr (by simp))
  have hqa : '=' ∉ '\"' :: a := by
    intro h
    rcases List.mem_cons.mp h with h1 | h1
    · exact absurd h1 (by decide)
    · exact ha3 h1
  have hsplit : splitCh '=' (k ++ '=' :: '\"' :: a) = [k, '\"' :: a] := by
    rw [splitCh_append, splitCh_eq_of_not_mem _ _ hk2, splitCh_eq_of_not_mem _ _ hqa]
    rfl
  have hlast1 : ¬ (('\"' :: a).getLast? = some '\"') := by
    obtain ⟨y, a', rfl⟩ := List.exists_cons_of_ne_nil ha1
    rw [List.getLast?_cons_cons]
    exact ha2
  have htr : strTruthy (some k) = true := by simp [strTruthy, hk1]
  have hstep1 : tokStep ⟨none, [], []⟩ (k ++ '=' :: '\"' :: a) = ⟨some k, '\"' :: a, []⟩ := by
    simp [tokStep, hne1a, hne1b, hmem1, hsplit, hlast1, htr]
  have hne2a : ¬ (b ++ ['\"'] = []) := by simp
  have hne2b : ¬ (b ++ ['\"'] = ['/']) := by
    intro h
    have h2 := congrArg List.getLast? h
    rw [List.getLast?_concat] at h2
    simp at h2
  have hmem2 : ¬ ('=' ∈ b ++ ['\"']) := by
    intro h
    rcases List.mem_append.mp h with h1 | h1
    · exact hb h1
    · simp at h1
  have hlast2 : (b ++ ['\"']).getLast? = some '\"' := List.getLast?_concat b
  have hstep2 : tokStep ⟨some k, '\"' :: a, []⟩ (b ++ ['\"'])
      = ⟨none, [], [(k, '\"' :: (a ++ (b ++ ['\"'])))]⟩ := by
    simp [tokStep, hne2a, hne2b, hmem2, hlast2, htr]
  unfold tokenizeAttrs
  rw [List.foldl_cons, hstep1, List.foldl_cons, hstep2]
  rfl

/-- Witness for C7: `key="a b"` is tokenized with value `"ab"` (quotes
    included), both at the token loop and end to end on a whole line. -/
theorem tokenizer_drops_interior_spaces_witness :
    ("key".toList ≠ [] ∧ '=' ∉ "key".toList ∧ "a".toList ≠ []) ∧
    tokenizeAttrs ["key=\"a".toList, "b\"".toList] = [("key".toList, "\"ab\"".toList)] ∧
    parseDenoTagArgs ("<deno key=\"a b\" />".toList) = [[("key".toList, "\"ab\"".toList)]] :=
  ⟨⟨by decide, by decide, by decide⟩,
    by
      have h := tokenizer_drops_interior_spaces ("key".toList) ("a".toList) ("b".toList)
        (by decide) (by decide) (by decide) (by decide) (by decide) (by decide)
      exact h.trans (by decide),
    by decide⟩

/-! ### C8: an attribute whose quote never closes -/

/-- C8 counterexample: in `<deno k="v =x k >` the value of `k` opens a
    quote that never closes (no space-split token of the tag ends with a
    quote character), yet the tokenizer does emit a pair for the attribute
    name `k`: the later bare token `k` becomes a boolean attribute, because
    the intervening token `=x` resets the pending key.  So, as stated ("no
    pair for that attribute is emitted"), the claim fails. -/
theorem unterminated_quote_cex :
    parseDenoTagArgs ("<deno k=\"v =x k >".toList)
      = [[("x".toList, trueLit), ("k".toList, trueLit)]] ∧
    (∀ t ∈ splitCh ' ' (upToGt (" k=\"v =x k >".toList)), ¬ (t.getLast? = some '\"')) :=
  ⟨by decide, by decide⟩

/-- C8 (amended): for an attribute `k` whose value opens a quote that never
    closes — no subsequent token ends with the quote character, and (as the
    counterexample forces) no subsequent token contains `=` — the tokenizer
    emits no pair at all past that attribute and raises no error: the
    emitted pair list is exactly the pairs completed before it. -/
theorem unterminated_quote_drops (pre : List Str) (k w : Str) (rest : List Str)
    (hk1 : k ≠ []) (hk2 : '=' ∉ k)
    (hw1 : '=' ∉ w) (hw2 : ¬ (w.getLast? = some '\"'))
    (hrest : ∀ t ∈ rest, ¬ (t.getLast? = some '\"') ∧ '=' ∉ t) :
    tokenizeAttrs (pre ++ (k ++ '=' :: w) :: rest) = tokenizeAttrs pre := by
  have hkl : 0 < k.length := List.length_pos.mpr hk1
  have htr : strTruthy (some k) = true := by simp [strTruthy, hk1]
  unfold tokenizeAttrs
  rw [List.foldl_append, List.foldl_cons]
  have hstep : ∀ st0 : TokState,
      tokStep st0 (k ++ '=' :: w) = ⟨some k, st0.pendingValue ++ w, st0.pairs⟩ := by
    intro st0
    have hnea : ¬ (k ++ '=' :: w = []) := by simp
    have hneb : ¬ (k ++ '=' :: w = ['/']) := by
      intro h
      have hlen := congrArg List.length h
      simp at hlen
      omega
    have hmem : '=' ∈ k ++ '=' :: w := List.mem_append.mpr (Or.inr (by simp))
    have hsplit : splitCh '=' (k ++ '=' :: w) = [k, w] := by
      rw [splitCh_append, splitCh_eq_of_not_mem _ _ hk2, splitCh_eq_of_not_mem _ _ hw1]
      rfl
    simp [tokStep, hnea, hneb, hmem, hsplit, hw2, htr]
  rw [hstep]
  have hrest' : ∀ (ts : List Str), (∀ t ∈ ts, ¬ (t.getLast? = some '\"') ∧ '=' ∉ t) →
      ∀ (pend : Str) (P : List (Str × Str)),
        (List.foldl tokStep ⟨some k, pend, P⟩ ts).pairs = P := by
    intro ts
    induction ts with
    | nil => intro _ pend P; rfl
    | cons t ts' ih =>
      intro h pend P
      have ht := h t (by simp)
      by_cases hsk : t = [] ∨ t = ['/']
      · rw [List.foldl_cons, show tokStep ⟨some k, pend, P⟩ t = ⟨some k, pend, P⟩ by
          simp [tokStep, hsk]]
        exact ih (fun x hx => h x (by simp [hx])) pend P
      · rw [List.foldl_cons, show tokStep ⟨some k, pend, P⟩ t = ⟨some k, pend ++ t, P⟩ by
          simp [tokStep, hsk, ht.1, ht.2, htr]]
        exact ih (fun x hx => h x (by simp [hx])) _ P
  exact hrest' rest hrest _ _

/-- Witness for the amended C8: `k="v` never closes, later tokens `w1 w2`
    are absorbed into the pending value, and only the previously completed
    attribute `a="1"` is emitted. -/
theorem unterminated_quote_drops_witness :
    ("k".toList ≠ [] ∧ '=' ∉ "k".toList ∧ ¬ ("\"v".toList.getLast? = some '\"')) ∧
    tokenizeAttrs
        (["a=\"1\"".toList] ++ ("k".toList ++ '=' :: "\"v".toList)
          :: ["w1".toList, "w2".toList])
      = tokenizeAttrs ["a=\"1\"".toList] ∧
    tokenizeAttrs ["a=\"1\"".toList] = [("a".toList, "\"1\"".toList)] :=
  ⟨⟨by decide, by decide, by decide⟩,
    unterminated_quote_drops ["a=\"1\"".toList] ("k".toList) ("\"v".toList)
      ["w1".toList, "w2".toList] (by decide) (by decide) (by decide) (by decide) (by decide),
    by decide⟩

/-! ### C5: the line count of the reassembled document -/

theorem reassemble_cons_ne_nil (results : List Result) (l : Str) (rest : List Str) :
    reassemble results 0 (l :: rest) ≠ [] := by
  simp only [reassemble]
  intro hc
  rcases List.append_eq_nil.mp hc with ⟨hAB, _⟩
  rcases List.append_eq_nil.mp hAB with ⟨hA, hB⟩
  by_cases h : results.any (fun r => decide (r.from_ ≤ 0 ∧ 0 ≤ r.to_)) = true
  · rw [List.any_eq_true] at h
    obtain ⟨r, hr, hcov⟩ := h
    simp only [decide_eq_true_eq] at hcov
    have h0 : (0 : Nat) = r.from_ := (Nat.le_zero.mp hcov.1).symm
    have hmem : r.contents ∈
        (results.filter (fun r => decide ((0 : Nat) = r.from_))).map (fun r => r.contents) :=
      List.mem_map.mpr ⟨r, List.mem_filter.mpr ⟨hr, by simp [← h0]⟩, rfl⟩
    rw [hA] at hmem
    simp at hmem
  · rw [if_neg h] at hB
    simp at hB

theorem lineCount_of_not_mem (l : Str) (h : '\n' ∉ l) : lineCount l = 1 := by
  unfold lineCount
  rw [splitCh_eq_of_not_mem _ _ h]
  rfl

theorem list_range_sum (f : Nat → Nat) : ∀ n : Nat,
    ((List.range n).map f).sum = ∑ j ∈ Finset.range n, f j := by
  intro n
  induction n with
  | zero => simp
  | succ n ih =>
    rw [List.range_succ, Finset.sum_range_succ, List.map_append, List.sum_append, ih]
    simp

theorem reassemble_sum (results : List Result) :
    ∀ (lines : List Str) (i0 : Nat), (∀ l ∈ lines, '\n' ∉ l) →
      ((reassemble results i0 lines).map lineCount).sum
        = ((List.range' i0 lines.length).map (fun j =>
            ((results.filter (fun r => decide (j = r.from_))).map
                (fun r => lineCount r.contents)).sum
             + (if results.any (fun r => decide (r.from_ ≤ j ∧ j ≤ r.to_))
                then 0 else 1))).sum := by
  intro lines
  induction lines with
  | nil => intro i0 _; simp [reassemble]
  | cons l rest ih =>
    intro i0 h
    simp only [reassemble]
    rw [List.map_append, List.map_append, List.sum_append, List.sum_append]
    have hmid : ((if results.any (fun r => decide (r.from_ ≤ i0 ∧ i0 ≤ r.to_))
          then ([] : List Str) else [l]).map lineCount).sum
        = (if results.any (fun r => decide (r.from_ ≤ i0 ∧ i0 ≤ r.to_)) then 0 else 1) := by
      by_cases hc : results.any (fun r => decide (r.from_ ≤ i0 ∧ i0 ≤ r.to_)) = true
      · rw [if_pos hc, if_pos hc]
        rfl
      · rw [if_neg hc, if_neg hc]
        simp [lineCount_of_not_mem l (h l (by simp))]
    have hcomp : ∀ (L : List Result),
        (((L.map (fun r => r.contents)).map lineCount)).sum
          = (L.map (fun r => lineCount r.contents)).sum := by
      intro L
      rw [List.map_map]
      rfl
    rw [hmid, ih (i0 + 1) (fun x hx => h x (by simp [hx])), hcomp]
    rw [show (l :: rest).length = rest.length + 1 from rfl, List.range'_succ,
      List.map_cons, List.sum_cons]

theorem sum_insert_counts (n : Nat) : ∀ (results : List Result),
    (∀ r ∈ results, r.from_ < n) →
    ∑ j ∈ Finset.range n,
        ((results.filter (fun r => decide (j = r.from_))).map
          (fun r => lineCount r.contents)).sum
      = (results.map (fun r => lineCount r.contents)).sum := by
  intro results
  induction results with
  | nil => intro _; simp
  | cons r rs ih =>
    intro h
    have hr := h r (by simp)
    have hpt : ∀ j : Nat,
        (((r :: rs).filter (fun x => decide (j = x.from_))).map
          (fun x => lineCount x.contents)).sum
          = (if j = r.from_ then lineCount r.contents else 0)
            + ((rs.filter (fun x => decide (j = x.from_))).map
                (fun x => lineCount x.contents)).sum := by
      intro j
      rw [List.filter_cons]
      by_cases hj : j = r.from_
      · rw [if_pos (by simpa using hj), if_pos hj]
        simp
      · rw [if_neg (by simpa using hj), if_neg hj]
        simp
    simp only [hpt]
    rw [Finset.sum_add_distrib, ih (fun x hx => h x (by simp [hx])),
      Finset.sum_ite_eq' (Finset.range n) r.from_ (fun _ => lineCount r.contents),
      if_pos (Finset.mem_range.mpr hr)]
    simp

theorem countP_cover_le_one (i : Nat) : ∀ (results : List Result),
    List.Pairwise (fun r r' => r.to_ < r'.from_ ∨ r'.to_ < r.from_) results →
    results.countP (fun r => decide (r.from_ ≤ i ∧ i ≤ r.to_)) ≤ 1 := by
  intro results
  induction results with
  | nil => intro _; simp
  | cons r rs ih =>
    intro hp
    rw [List.countP_cons]
    rcases List.pairwise_cons.mp hp with ⟨hd, hp'⟩
    by_cases hc : r.from_ ≤ i ∧ i ≤ r.to_
    · rw [if_pos (by simpa using hc)]
      have h0 : rs.countP (fun r' => decide (r'.from_ ≤ i ∧ i ≤ r'.to_)) = 0 := by
        rw [List.countP_eq_zero]
        intro r' hr'
        simp only [decide_eq_true_eq]
        intro hcc
        rcases hd r' hr' with h1 | h1 <;> omega
      omega
    · rw [if_neg (by simpa using hc)]
      have := ih hp'
      omega

theorem keepBit_add_countP (i : Nat) (results : List Result)
    (hle : results.countP (fun r => decide (r.from_ ≤ i ∧ i ≤ r.to_)) ≤ 1) :
    (if results.any (fun r => decide (r.from_ ≤ i ∧ i ≤ r.to_)) then 0 else 1)
      + results.countP (fun r => decide (r.from_ ≤ i ∧ i ≤ r.to_)) = 1 := by
  by_cases h : results.any (fun r => decide (r.from_ ≤ i ∧ i ≤ r.to_)) = true
  · rw [if_pos h]
    rw [List.any_eq_true] at h
    obtain ⟨r, hr, hcr⟩ := h
    have h3 : 0 < results.countP (fun r => decide (r.from_ ≤ i ∧ i ≤ r.to_)) :=
      List.countP_pos.mpr ⟨r, hr, hcr⟩
    omega
  · rw [if_neg h]
    have h0 : results.countP (fun r => decide (r.from_ ≤ i ∧ i ≤ r.to_)) = 0 := by
      rw [List.countP_eq_zero]
      intro r hr hcr
      exact h (List.any_eq_true.mpr ⟨r, hr, hcr⟩)
    omega

theorem sum_indicator_interval (n a c : Nat) (h2 : c < n) :
    ∑ j ∈ Finset.range n, (if a ≤ j ∧ j ≤ c then 1 else 0) = c + 1 - a := by
  have hflt : Finset.filter (fun j => a ≤ j ∧ j ≤ c) (Finset.range n) = Finset.Icc a c := by
    ext j
    simp only [Finset.mem_filter, Finset.mem_range, Finset.mem_Icc]
    constructor
    · rintro ⟨_, h3⟩
      exact h3
    · rintro ⟨h3, h4⟩
      exact ⟨Nat.lt_of_le_of_lt h4 h2, h3, h4⟩
  rw [Finset.sum_boole, hflt, Nat.card_Icc]
  simp

theorem sum_countP_cover (n : Nat) : ∀ (results : List Result),
    (∀ r ∈ results, r.from_ ≤ r.to_ ∧ r.to_ < n) →
    ∑ j ∈ Finset.range n, results.countP (fun r => decide (r.from_ ≤ j ∧ j ≤ r.to_))
      = (results.map (fun r => r.to_ + 1 - r.from_)).sum := by
  intro results
  induction results with
  | nil => intro _; simp
  | cons r rs ih =>
    intro h
    have hr := h r (by simp)
    simp only [List.countP_cons, decide_eq_true_eq]
    rw [Finset.sum_add_distrib, ih (fun x hx => h x (by simp [hx])),
      sum_indicator_interval n r.from_ r.to_ hr.2]
    simp [Nat.add_comm]

/-- C5 counterexample: for the two-line document `a\nb` and the single
    in-bounds result `{from 0, to 1, contents "x"}`, the reassembled output
    is the single line `x`, while the claim's formula
    `original − (to − from) + contents-lines` predicts `2 − 1 + 1 = 2`
    lines: it forgets that a group spans `to − from + 1` lines. -/
theorem line_count_cex :
    lineCount (replaceTagsWithResults ("a\nb".toList) [⟨"x".toList, 0, 1⟩]) = 1 ∧
    lineCount ("a\nb".toList) - (1 - 0) + lineCount ("x".toList) = 2 :=
  ⟨by decide, by decide⟩

/-- C5 (amended): for every document and every list of in-bounds,
    non-overlapping results, the line count of the reassembled output
    equals the original line count minus the sum over groups of
    `to − from + 1`, plus the sum of the line counts of their inserted
    contents (stated additively to avoid truncated subtraction). -/
theorem reassembled_line_count (orig : Str) (results : List Result)
    (hwf : ∀ r ∈ results, r.from_ ≤ r.to_ ∧ r.to_ < lineCount orig)
    (hdisj : List.Pairwise (fun r r' => r.to_ < r'.from_ ∨ r'.to_ < r.from_) results) :
    lineCount (replaceTagsWithResults orig results)
        + (results.map (fun r => r.to_ + 1 - r.from_)).sum
      = lineCount orig + (results.map (fun r => lineCount r.contents)).sum := by
  unfold replaceTagsWithResults
  have hnn : splitCh '\n' orig ≠ [] := splitCh_ne_nil '\n' orig
  obtain ⟨l0, rest0, hl0⟩ := List.exists_cons_of_ne_nil hnn
  have hne : reassemble results 0 (splitCh '\n' orig) ≠ [] := by
    rw [hl0]
    exact reassemble_cons_ne_nil results l0 rest0
  rw [lineCount_intercalate _ hne]
  have hnomem : ∀ l ∈ splitCh '\n' orig, '\n' ∉ l :=
    fun l hl => not_mem_of_mem_splitCh '\n' orig l hl
  rw [reassemble_sum results (splitCh '\n' orig) 0 hnomem, ← List.range_eq_range',
    list_range_sum]
  rw [Finset.sum_add_distrib]
  have hlen : (splitCh '\n' orig).length = lineCount orig := rfl
  have h1 : ∀ r ∈ results, r.from_ < (splitCh '\n' orig).length := by
    intro r hr
    have := hwf r hr
    rw [hlen]
    omega
  have hwf' : ∀ r ∈ results, r.from_ ≤ r.to_ ∧ r.to_ < (splitCh '\n' orig).length := by
    intro r hr
    have := hwf r hr
    rw [hlen]
    omega
  rw [sum_insert_counts (splitCh '\n' orig).length results h1]
  have hkeep : ∑ j ∈ Finset.range (splitCh '\n' orig).length,
        (if results.any (fun r => decide (r.from_ ≤ j ∧ j ≤ r.to_)) then 0 else 1)
      + (results.map (fun r => r.to_ + 1 - r.from_)).sum
      = (splitCh '\n' orig).length := by
    rw [← sum_countP_cover (splitCh '\n' orig).length results hwf',
      ← Finset.sum_add_distrib]
    rw [Finset.sum_congr rfl
      (fun j _ => keepBit_add_countP j results (countP_cover_le_one j results hdisj))]
    simp
  simp only [← hlen]
  omega

/-- Witness for the amended C5: a two-line group replaced by a two-line
    contents in a three-line document. -/
theorem reassembled_line_count_witness :
    List.Pairwise (fun r r' => r.to_ < r'.from_ ∨ r'.to_ < r.from_)
      ([⟨"x\ny".toList, 1, 1⟩] : List Result) ∧
    (lineCount (replaceTagsWithResults ("a\nb\nc".toList) [⟨"x\ny".toList, 1, 1⟩])
        + (([⟨"x\ny".toList, 1, 1⟩] : List Result).map (fun r => r.to_ + 1 - r.from_)).sum
      = lineCount ("a\nb\nc".toList)
        + (([⟨"x\ny".toList, 1, 1⟩] : List Result).map (fun r => lineCount r.contents)).sum) :=
  ⟨by decide,
    reassembled_line_count ("a\nb\nc".toList) [⟨"x\ny".toList, 1, 1⟩] (by decide) (by decide)⟩

end DenoTag
